import Mathlib

/-!
Verification of the MAE-ViT patch codec, random masking policy, losses and
config-override utilities of the repository, as shallow Lean embeddings.

Tensors are modelled as total functions from (unbounded) natural-number
indices to values, together with explicit shape parameters; every statement
about a tensor quantifies only over in-range indices.  Real-number tensor
entries are modelled by rationals (exact arithmetic); the random values drawn
by torch.rand are modelled as an explicit list of values in an arbitrary
linear order, since the code only ever compares them (argsort).
-/

namespace MAE

/-- Embedding of `patchify` (src/experiments/mae_vit_high/utils.py, lines
65-79; identical index semantics in `MAEViT.patchify` of
src/experiments/mae_vit_medium/model.py, lines 107-115).

The source performs `reshape(B, C, h, p, w, p)`, `permute(0, 2, 4, 3, 5, 1)`,
`reshape(B, h*w, p*p*C)` with `h = H / p`, `w = W / p`.  Written pointwise on
multi-indices: entry `(b, n, d)` of the result is entry
`(b, c, i*p + pi, j*p + pj)` of the image, where `i = n / w`, `j = n % w`
(row-major unflattening of the patch index over the `h × w` patch grid) and
`pi = d / (p*C)`, `pj = d / C % p`, `c = d % C` (row-major unflattening of
the within-patch index over `p × p × C`). -/
def patchify {α : Type} (C W p : ℕ) (imgs : ℕ → ℕ → ℕ → ℕ → α) :
    ℕ → ℕ → ℕ → α :=
  fun b n d =>
    let w := W / p
    imgs b (d % C) (n / w * p + d / (p * C)) (n % w * p + d / C % p)

/-- Embedding of `unpatchify` (src/experiments/mae_vit_high/utils.py, lines
82-95; identical index semantics in `MAEViT.unpatchify` of
src/experiments/mae_vit_medium/model.py, lines 117-127).

The source sets `h = w = int(math.sqrt(N))` and performs
`reshape(B, h, w, p, p, C)`, `permute(0, 5, 1, 3, 2, 4)`,
`reshape(B, C, h*p, w*p)`.  Written pointwise: entry `(b, c, y, x)` of the
result is entry `(b, (y/p)*h + x/p, ((y%p)*p + x%p)*C + c)` of the patch
sequence. -/
def unpatchify {α : Type} (p C N : ℕ) (patches : ℕ → ℕ → ℕ → α) :
    ℕ → ℕ → ℕ → ℕ → α :=
  fun b c y x =>
    let h := Nat.sqrt N
    patches b (y / p * h + x / p) ((y % p * p + x % p) * C + c)

/-- Concrete 1-channel 2×8 image (patch size 1) used to refute the claim that
a perfect-square patch count suffices for the patchify/unpatchify roundtrip. -/
def cexImg : ℕ → ℕ → ℕ → ℕ → ℕ := fun _ _ y x => y * 8 + x

/-- C1 (counterexample).  The claim quantifies over all images whose height
and width are divisible by the patch size and whose patch count is a perfect
square.  For a 2×8 image with patch size 1 the patch count is 16 = 4·4, a
perfect square, yet the roundtrip fails: `unpatchify` rearranges the 2×8
patch grid as a 4×4 grid, so pixel (1,0) of the roundtrip holds pixel (0,4)
of the original. -/
theorem C1_cex :
    2 % 1 = 0 ∧ 8 % 1 = 0 ∧ (∃ k, k * k = 2 / 1 * (8 / 1)) ∧
      unpatchify 1 1 (2 / 1 * (8 / 1)) (patchify 1 8 1 cexImg) 0 0 1 0 ≠
        cexImg 0 0 1 0 := by
  refine ⟨rfl, rfl, ⟨4, by norm_num⟩, ?_⟩
  have h16 : Nat.sqrt (2 / 1 * (8 / 1)) = 4 := by
    rw [show (2 / 1 * (8 / 1) : ℕ) = 4 ^ 2 by norm_num]
    exact Nat.sqrt_eq' 4
  simp only [unpatchify, patchify, cexImg, h16]
  norm_num

/-- C1 (amended).  For square images — height equal to width and divisible by
the patch size — `unpatchify` inverts `patchify` exactly, pointwise at every
in-range index. -/
theorem patchify_unpatchify_roundtrip {α : Type} (p C H W : ℕ)
    (imgs : ℕ → ℕ → ℕ → ℕ → α) (hp : 0 < p) (hH : H % p = 0) (hHW : H = W)
    {b c y x : ℕ} (hc : c < C) (hy : y < H) (hx : x < W) :
    unpatchify p C (H / p * (W / p)) (patchify C W p imgs) b c y x =
      imgs b c y x := by
  subst hHW
  have hC : 0 < C := by omega
  set h := H / p with hh
  have hdvd : p ∣ H := Nat.dvd_of_mod_eq_zero hH
  have hHk : H = h * p := by rw [hh, Nat.div_mul_cancel hdvd]
  have hhpos : 0 < h := Nat.div_pos (Nat.le_of_dvd (by omega) hdvd) hp
  have hsq : Nat.sqrt (h * h) = h := by
    rw [← pow_two]; exact Nat.sqrt_eq' h
  have hxp : x / p < h := (Nat.div_lt_iff_lt_mul hp).mpr (by omega)
  simp only [unpatchify, patchify, hsq]
  have e1 : ((y % p * p + x % p) * C + c) % C = c := by
    rw [show (y % p * p + x % p) * C + c = C * (y % p * p + x % p) + c by ring,
      Nat.mul_add_mod, Nat.mod_eq_of_lt hc]
  have hlt : x % p * C + c < p * C := by
    have h1 : x % p + 1 ≤ p := Nat.mod_lt x hp
    calc x % p * C + c < x % p * C + C := by omega
      _ = (x % p + 1) * C := by ring
      _ ≤ p * C := Nat.mul_le_mul_right C h1
  have e2 : ((y % p * p + x % p) * C + c) / (p * C) = y % p := by
    rw [show (y % p * p + x % p) * C + c = p * C * (y % p) + (x % p * C + c) by
        ring,
      Nat.mul_add_div (by positivity), Nat.div_eq_of_lt hlt, add_zero]
  have e3 : ((y % p * p + x % p) * C + c) / C % p = x % p := by
    rw [show (y % p * p + x % p) * C + c = C * (y % p * p + x % p) + c by ring,
      Nat.mul_add_div hC, Nat.div_eq_of_lt hc, add_zero,
      show y % p * p + x % p = p * (y % p) + x % p by ring,
      Nat.mul_add_mod, Nat.mod_eq_of_lt (Nat.mod_lt x hp)]
  have e4 : (y / p * h + x / p) / h = y / p := by
    rw [show y / p * h + x / p = h * (y / p) + x / p by ring,
      Nat.mul_add_div hhpos, Nat.div_eq_of_lt hxp, add_zero]
  have e5 : (y / p * h + x / p) % h = x / p := by
    rw [show y / p * h + x / p = h * (y / p) + x / p by ring,
      Nat.mul_add_mod, Nat.mod_eq_of_lt hxp]
  rw [e1, e2, e3, e4, e5]
  have ry : y / p * p + y % p = y := Nat.div_add_mod' y p
  have rx : x / p * p + x % p = x := Nat.div_add_mod' x p
  rw [ry, rx]

/-- Witness for the amended C1 theorem at a concrete instance. -/
theorem patchify_unpatchify_roundtrip_witness :
    unpatchify 2 1 (4 / 2 * (4 / 2)) (patchify 1 4 2 cexImg) 0 0 3 1 =
      cexImg 0 0 3 1 :=
  patchify_unpatchify_roundtrip 2 1 4 4 cexImg (by decide) (by decide) rfl
    (by decide) (by decide) (by decide)

/-!  ## Random masking policy

`MAEViT.random_masking` (src/experiments/mae_vit_high/model.py, lines
103-123; textually identical in src/experiments/mae_vit_medium/model.py,
lines 129-145) acts independently on every batch row, so it is embedded per
row.  The row of `torch.rand` noise is an explicit list over an arbitrary
linear order; `torch.argsort` is modelled as a stable sort of the index range
by value.  -/

/-- Index comparison realising `torch.argsort(v)`: index `i` precedes `j`
when `v[i] < v[j]`, ties broken by index position (stable order; for the
almost-surely distinct `torch.rand` values the tie-break is never used, and
any tie-break yields a valid argsort). -/
def idxLe {β : Type} [LinearOrder β] [Inhabited β] (v : List β) (i j : ℕ) :
    Prop :=
  v.getD i default < v.getD j default ∨
    (v.getD i default = v.getD j default ∧ i ≤ j)

instance {β : Type} [LinearOrder β] [Inhabited β] (v : List β) :
    DecidableRel (idxLe v) := fun i j => by
  unfold idxLe; infer_instance

instance {β : Type} [LinearOrder β] [Inhabited β] (v : List β) :
    IsTotal ℕ (idxLe v) := by
  constructor
  intro i j
  rcases lt_trichotomy (v.getD i default) (v.getD j default) with h | h | h
  · exact Or.inl (Or.inl h)
  · rcases le_total i j with hij | hij
    · exact Or.inl (Or.inr ⟨h, hij⟩)
    · exact Or.inr (Or.inr ⟨h.symm, hij⟩)
  · exact Or.inr (Or.inl h)

instance {β : Type} [LinearOrder β] [Inhabited β] (v : List β) :
    IsTrans ℕ (idxLe v) := by
  constructor
  intro i j k hij hjk
  rcases hij with h1 | ⟨h1, h1i⟩
  · rcases hjk with h2 | ⟨h2, h2i⟩
    · exact Or.inl (h1.trans h2)
    · exact Or.inl (h2 ▸ h1)
  · rcases hjk with h2 | ⟨h2, h2i⟩
    · exact Or.inl (h1 ▸ h2)
    · exact Or.inr ⟨h1.trans h2, h1i.trans h2i⟩

/-- `ids = torch.argsort(noise)` (model.py line 113): the list of indices of
`v`, sorted by their values. -/
def argsort {β : Type} [LinearOrder β] [Inhabited β] (v : List β) : List ℕ :=
  List.insertionSort (idxLe v) (List.range v.length)

theorem argsort_perm {β : Type} [LinearOrder β] [Inhabited β] (v : List β) :
    (argsort v).Perm (List.range v.length) :=
  List.perm_insertionSort _ _

theorem argsort_length {β : Type} [LinearOrder β] [Inhabited β]
    (v : List β) : (argsort v).length = v.length := by
  rw [(argsort_perm v).length_eq, List.length_range]

theorem argsort_nodup {β : Type} [LinearOrder β] [Inhabited β] (v : List β) :
    (argsort v).Nodup :=
  (argsort_perm v).nodup_iff.mpr (List.nodup_range _)

theorem argsort_mem {β : Type} [LinearOrder β] [Inhabited β] {v : List β}
    {i : ℕ} (h : i ∈ argsort v) : i < v.length :=
  List.mem_range.mp ((argsort_perm v).mem_iff.mp h)

theorem argsort_sorted {β : Type} [LinearOrder β] [Inhabited β]
    (v : List β) : (argsort v).Sorted (idxLe v) :=
  List.sorted_insertionSort _ _

/-- Mapping a list's lookup over the full index range recovers the list. -/
theorem map_getD_range {γ : Type} (l : List γ) (d : γ) :
    (List.range l.length).map (fun i => l.getD i d) = l := by
  apply List.ext_getElem
  · simp
  · intro i h1 h2
    rw [List.getElem_map, List.getElem_range,
      List.getD_eq_getElem _ _ h2]

/-- Lookup in a mapped list at an in-range index. -/
theorem getD_map_of_lt {γ δ : Type} (f : γ → δ) (l : List γ) (d : δ)
    (e : γ) {i : ℕ} (hi : i < l.length) :
    (l.map f).getD i d = f (l.getD i e) := by
  rw [List.getD_eq_getElem _ _ (by simpa using hi), List.getElem_map,
    List.getD_eq_getElem _ _ hi]

/-- Key property of `argsort` on a list `σ` that is a permutation of
`range n` (as `ids_shuffle` is): composing `σ` with its argsort is the
identity, i.e. `torch.argsort(ids_shuffle)` inverts `ids_shuffle`. -/
theorem getD_argsort_getD {σ : List ℕ}
    (hσ : σ.Perm (List.range σ.length)) {k : ℕ} (hk : k < σ.length) :
    σ.getD ((argsort σ).getD k 0) 0 = k := by
  have hnd : σ.Nodup := hσ.nodup_iff.mpr (List.nodup_range _)
  have hm : ((argsort σ).map (fun i => σ.getD i 0)).Perm σ := by
    have h1 := (argsort_perm σ).map (fun i => σ.getD i 0)
    rw [map_getD_range] at h1
    exact h1
  have hsorted :
      ((argsort σ).map (fun i => σ.getD i 0)).Sorted (· < ·) := by
    rw [List.Sorted, List.pairwise_map]
    refine List.Pairwise.imp_of_mem ?_
      ((List.Pairwise.and (argsort_nodup σ) (argsort_sorted σ)))
    intro i j hi hj hij
    rcases hij.2 with h | ⟨h, _⟩
    · simpa using h
    · exfalso
      apply hij.1
      have hi2 : i < σ.length := argsort_mem hi
      have hj2 : j < σ.length := argsort_mem hj
      rw [List.getD_eq_getElem _ _ hi2, List.getD_eq_getElem _ _ hj2] at h
      have := (hnd.get_inj_iff (i := ⟨i, hi2⟩) (j := ⟨j, hj2⟩)).mp h
      simpa using this
  have hrange : (argsort σ).map (fun i => σ.getD i 0) =
      List.range σ.length := by
    refine List.eq_of_perm_of_sorted (r := (· ≤ ·))
      (hm.trans hσ) ?_ (List.sorted_le_range _)
    exact hsorted.le_of_lt
  have hA : ((argsort σ).map (fun i => σ.getD i 0)).getD k 0 =
      σ.getD ((argsort σ).getD k 0) 0 :=
    getD_map_of_lt _ _ 0 0 (by rw [argsort_length]; exact hk)
  have hB : ((argsort σ).map (fun i => σ.getD i 0)).getD k 0 = k := by
    rw [hrange, List.getD_eq_getElem _ _ (by simpa using hk),
      List.getElem_range]
  rw [← hA]
  exact hB

/-- The other composition: `argsort σ` applied after `σ` is also the
identity when `σ` is a permutation of `range n`. -/
theorem argsort_getD_getD {σ : List ℕ}
    (hσ : σ.Perm (List.range σ.length)) {j : ℕ} (hj : j < σ.length) :
    (argsort σ).getD (σ.getD j 0) 0 = j := by
  have hnd : σ.Nodup := hσ.nodup_iff.mpr (List.nodup_range _)
  have hval : σ.getD j 0 < σ.length := by
    have : σ.getD j 0 ∈ σ := by
      rw [List.getD_eq_getElem _ _ hj]; exact List.getElem_mem hj
    exact List.mem_range.mp (hσ.mem_iff.mp this)
  have h1 := getD_argsort_getD hσ (k := σ.getD j 0) hval
  have hτ : (argsort σ).getD (σ.getD j 0) 0 < σ.length := by
    apply argsort_mem (v := σ)
    rw [List.getD_eq_getElem _ _ (by rw [argsort_length]; exact hval)]
    exact List.getElem_mem _
  set t := (argsort σ).getD (σ.getD j 0) 0 with ht
  rw [List.getD_eq_getElem _ _ hτ, List.getD_eq_getElem _ _ hj] at h1
  have := (hnd.get_inj_iff (i := ⟨t, hτ⟩) (j := ⟨j, hj⟩)).mp h1
  simpa using this

/-- `len_keep = int(N * (1 - mask_ratio))` (model.py line 110).  Python
`int()` truncates toward zero; for `mask_ratio ≤ 1` the operand is
nonnegative, so this is the floor. -/
def lenKeep (N : ℕ) (r : ℚ) : ℕ := ⌊(N : ℚ) * (1 - r)⌋₊

/-- `ids_shuffle = torch.argsort(noise, dim=1)` (model.py line 113), one row. -/
def ids_shuffle {β : Type} [LinearOrder β] [Inhabited β] (noise : List β) :
    List ℕ :=
  argsort noise

/-- `ids_restore = torch.argsort(ids_shuffle, dim=1)` (model.py line 114). -/
def ids_restore {β : Type} [LinearOrder β] [Inhabited β] (noise : List β) :
    List ℕ :=
  argsort (ids_shuffle noise)

/-- `ids_keep = ids_shuffle[:, :len_keep]` (model.py line 116). -/
def ids_keep {β : Type} [LinearOrder β] [Inhabited β] (noise : List β)
    (r : ℚ) : List ℕ :=
  (ids_shuffle noise).take (lenKeep noise.length r)

/-- `x_masked = torch.gather(x, dim=1, index=ids_keep...)` (model.py line
117), one row; the row of patch embeddings is the function `x`. -/
def maskedSeq {α β : Type} [LinearOrder β] [Inhabited β] (x : ℕ → α)
    (noise : List β) (r : ℚ) : List α :=
  (ids_keep noise r).map x

/-- The returned mask (model.py lines 119-121): a row of `N` ones with the
first `len_keep` entries zeroed, gathered along `ids_restore`; entry `i` is
`0` iff `ids_restore[i] < len_keep`. -/
def maskRow {β : Type} [LinearOrder β] [Inhabited β] (noise : List β)
    (r : ℚ) : List ℚ :=
  (ids_restore noise).map
    (fun k => if k < lenKeep noise.length r then (0 : ℚ) else 1)

/-- The decoder's re-insertion of mask tokens (`MAEViT.forward_decoder`,
src/experiments/mae_vit_high/model.py lines 138-148): concatenate the
visible subsequence with `N - N_visible` copies of the mask token, then
gather along `ids_restore`. -/
def restoreRow {α β : Type} [LinearOrder β] [Inhabited β] (xm : List α)
    (maskTok : α) (noise : List β) : List α :=
  let xcat := xm ++ List.replicate ((ids_restore noise).length - xm.length)
    maskTok
  (ids_restore noise).map (fun k => xcat.getD k maskTok)

theorem ids_shuffle_length {β : Type} [LinearOrder β] [Inhabited β]
    (noise : List β) : (ids_shuffle noise).length = noise.length :=
  argsort_length noise

theorem ids_shuffle_perm {β : Type} [LinearOrder β] [Inhabited β]
    (noise : List β) :
    (ids_shuffle noise).Perm (List.range (ids_shuffle noise).length) := by
  rw [ids_shuffle_length]
  exact argsort_perm noise

theorem ids_restore_length {β : Type} [LinearOrder β] [Inhabited β]
    (noise : List β) : (ids_restore noise).length = noise.length := by
  rw [ids_restore, argsort_length, ids_shuffle_length]

theorem ids_restore_getD_lt {β : Type} [LinearOrder β] [Inhabited β]
    (noise : List β) {i : ℕ} (hi : i < noise.length) :
    (ids_restore noise).getD i 0 < noise.length := by
  have h1 : i < (ids_restore noise).length := by
    rw [ids_restore_length]; exact hi
  rw [List.getD_eq_getElem _ _ h1]
  have h2 := argsort_mem (v := ids_shuffle noise)
    (List.getElem_mem h1)
  rwa [ids_shuffle_length] at h2

/-- `ids_shuffle` composed with `ids_restore` is the identity on the index
range: the shuffled position recorded by `ids_restore[i]` indeed holds
patch `i`. -/
theorem shuffle_restore_id {β : Type} [LinearOrder β] [Inhabited β]
    (noise : List β) {i : ℕ} (hi : i < noise.length) :
    (ids_shuffle noise).getD ((ids_restore noise).getD i 0) 0 = i := by
  have h := getD_argsort_getD (σ := ids_shuffle noise)
    (ids_shuffle_perm noise) (k := i)
    (by rw [ids_shuffle_length]; exact hi)
  exact h

/-- `ids_restore` composed with `ids_shuffle` is also the identity. -/
theorem restore_shuffle_id {β : Type} [LinearOrder β] [Inhabited β]
    (noise : List β) {j : ℕ} (hj : j < noise.length) :
    (ids_restore noise).getD ((ids_shuffle noise).getD j 0) 0 = j := by
  exact argsort_getD_getD (σ := ids_shuffle noise)
    (ids_shuffle_perm noise) (by rw [ids_shuffle_length]; exact hj)

theorem getD_replicate_self {γ : Type} (m i : ℕ) (a : γ) :
    (List.replicate m a).getD i a = a := by
  rcases Nat.lt_or_ge i m with h | h
  · rw [List.getD_eq_getElem _ _ (by simpa using h), List.getElem_replicate]
  · exact List.getD_eq_default _ _ (by simpa using h)

theorem maskedSeq_length {α β : Type} [LinearOrder β] [Inhabited β]
    (x : ℕ → α) (noise : List β) (r : ℚ) :
    (maskedSeq x noise r).length =
      min (lenKeep noise.length r) noise.length := by
  rw [maskedSeq, List.length_map, ids_keep, List.length_take,
    ids_shuffle_length]

theorem ids_keep_getD {β : Type} [LinearOrder β] [Inhabited β]
    (noise : List β) (r : ℚ) {j : ℕ}
    (hj : j < min (lenKeep noise.length r) noise.length) :
    (ids_keep noise r).getD j 0 = (ids_shuffle noise).getD j 0 := by
  have h1 : j < (ids_keep noise r).length := by
    rw [ids_keep, List.length_take, ids_shuffle_length]; exact hj
  have h2 : j < (ids_shuffle noise).length := by
    rw [ids_shuffle_length]; omega
  rw [List.getD_eq_getElem _ _ h1, List.getD_eq_getElem _ _ h2]
  exact List.getElem_take _

/-- C2.  One step of `random_masking` followed by the decoder's
mask-token re-insertion: at every original patch position `i`, either the
mask is `0`, the restored sequence carries patch `i`'s visible value, and `i`
is among the kept indices — or the mask is `1`, the restored sequence carries
the mask token, and `i` is not among the kept indices.  In particular the
returned mask is in original (same-order-as-input) patch order. -/
theorem random_masking_restores {α β : Type} [LinearOrder β] [Inhabited β]
    (noise : List β) (x : ℕ → α) (maskTok : α) (r : ℚ) {i : ℕ}
    (hi : i < noise.length) :
    ((maskRow noise r).getD i 0 = 0 ∧
      (restoreRow (maskedSeq x noise r) maskTok noise).getD i maskTok =
        x i ∧
      i ∈ ids_keep noise r) ∨
    ((maskRow noise r).getD i 0 = 1 ∧
      (restoreRow (maskedSeq x noise r) maskTok noise).getD i maskTok =
        maskTok ∧
      ¬ i ∈ ids_keep noise r) := by
  have hτin : (ids_restore noise).getD i 0 < noise.length :=
    ids_restore_getD_lt noise hi
  have hilen : i < (ids_restore noise).length := by
    rw [ids_restore_length]; exact hi
  have hmask : (maskRow noise r).getD i 0 =
      (if (ids_restore noise).getD i 0 < lenKeep noise.length r
        then (0 : ℚ) else 1) := by
    simp only [maskRow]
    exact getD_map_of_lt _ _ _ 0 hilen
  have hxmlen : (maskedSeq x noise r).length =
      min (lenKeep noise.length r) noise.length :=
    maskedSeq_length x noise r
  have hrest :
      (restoreRow (maskedSeq x noise r) maskTok noise).getD i maskTok =
      (maskedSeq x noise r ++
        List.replicate
          ((ids_restore noise).length - (maskedSeq x noise r).length)
          maskTok).getD ((ids_restore noise).getD i 0) maskTok := by
    simp only [restoreRow]
    exact getD_map_of_lt _ _ _ 0 hilen
  by_cases h : (ids_restore noise).getD i 0 < lenKeep noise.length r
  · left
    have hτxm :
        (ids_restore noise).getD i 0 < (maskedSeq x noise r).length := by
      omega
    have hkeepD :
        (ids_keep noise r).getD ((ids_restore noise).getD i 0) 0 = i := by
      rw [ids_keep_getD noise r (by omega), shuffle_restore_id noise hi]
    refine ⟨by rw [hmask, if_pos h], ?_, ?_⟩
    · rw [hrest, List.getD_append _ _ _ _ hτxm]
      have hmap := getD_map_of_lt x (ids_keep noise r) maskTok 0
        (i := (ids_restore noise).getD i 0)
        (by rw [ids_keep, List.length_take, ids_shuffle_length]; omega)
      calc (maskedSeq x noise r).getD ((ids_restore noise).getD i 0) maskTok
          = x ((ids_keep noise r).getD ((ids_restore noise).getD i 0) 0) :=
            hmap
        _ = x i := by rw [hkeepD]
    · have hτk :
          (ids_restore noise).getD i 0 < (ids_keep noise r).length := by
        rw [ids_keep, List.length_take, ids_shuffle_length]; omega
      rw [← hkeepD, List.getD_eq_getElem _ _ hτk]
      exact List.getElem_mem hτk
  · right
    refine ⟨by rw [hmask, if_neg h], ?_, ?_⟩
    · rw [hrest, List.getD_append_right _ _ _ _ (by omega),
        ids_restore_length, getD_replicate_self]
    · intro hmem
      obtain ⟨j, hj, hget⟩ := List.mem_iff_getElem.mp hmem
      have hjlen : j < min (lenKeep noise.length r) noise.length := by
        have hl := hj
        rw [ids_keep, List.length_take, ids_shuffle_length] at hl
        exact hl
      have hgD : (ids_keep noise r).getD j 0 = i := by
        rw [List.getD_eq_getElem _ _ hj]; exact hget
      have hσval : (ids_shuffle noise).getD j 0 = i := by
        rw [← ids_keep_getD noise r hjlen]; exact hgD
      have hres := restore_shuffle_id noise (j := j) (by omega)
      rw [hσval] at hres
      omega

/-- Witness for C2 at a concrete noise row. -/
theorem random_masking_restores_witness :
    ((maskRow ([1, 0, 3, 2] : List ℕ) (1 / 2)).getD 0 0 = 0 ∧
      (restoreRow (maskedSeq (fun k => k + 10) ([1, 0, 3, 2] : List ℕ)
          (1 / 2)) 99 ([1, 0, 3, 2] : List ℕ)).getD 0 99 = (fun k => k + 10) 0 ∧
      0 ∈ ids_keep ([1, 0, 3, 2] : List ℕ) (1 / 2)) ∨
    ((maskRow ([1, 0, 3, 2] : List ℕ) (1 / 2)).getD 0 0 = 1 ∧
      (restoreRow (maskedSeq (fun k => k + 10) ([1, 0, 3, 2] : List ℕ)
          (1 / 2)) 99 ([1, 0, 3, 2] : List ℕ)).getD 0 99 = 99 ∧
      ¬ 0 ∈ ids_keep ([1, 0, 3, 2] : List ℕ) (1 / 2)) :=
  random_masking_restores ([1, 0, 3, 2] : List ℕ) (fun k => k + 10) 99
    (1 / 2) (by decide)

theorem countP_lt_range (k n : ℕ) :
    (List.range n).countP (fun i => decide (i < k)) = min k n := by
  induction n with
  | zero => simp
  | succ n ih =>
      rw [List.range_succ, List.countP_append, ih]
      by_cases h : n < k <;> simp [List.countP_cons, h] <;> omega

theorem countP_ge_range (k n : ℕ) :
    (List.range n).countP (fun i => decide (k ≤ i)) = n - min k n := by
  induction n with
  | zero => simp
  | succ n ih =>
      rw [List.range_succ, List.countP_append, ih]
      by_cases h : k ≤ n <;> simp [List.countP_cons, h] <;> omega

theorem ids_restore_perm {β : Type} [LinearOrder β] [Inhabited β]
    (noise : List β) :
    (ids_restore noise).Perm (List.range noise.length) := by
  have h := argsort_perm (ids_shuffle noise)
  rw [ids_shuffle_length] at h
  exact h

/-- How many zeros the returned mask holds per row. -/
theorem maskRow_count_zero {β : Type} [LinearOrder β] [Inhabited β]
    (noise : List β) (r : ℚ) :
    (maskRow noise r).count 0 =
      min (lenKeep noise.length r) noise.length := by
  rw [maskRow, List.count_eq_countP, List.countP_map]
  have hfun : ((fun q => q == (0 : ℚ)) ∘
      fun k => if k < lenKeep noise.length r then (0 : ℚ) else 1) =
      fun k => decide (k < lenKeep noise.length r) := by
    funext k
    by_cases h : k < lenKeep noise.length r <;> simp [h]
  rw [hfun, List.Perm.countP_eq _ (ids_restore_perm noise),
    countP_lt_range]

/-- How many ones the returned mask holds per row. -/
theorem maskRow_count_one {β : Type} [LinearOrder β] [Inhabited β]
    (noise : List β) (r : ℚ) :
    (maskRow noise r).count 1 =
      noise.length - min (lenKeep noise.length r) noise.length := by
  rw [maskRow, List.count_eq_countP, List.countP_map]
  have hfun : ((fun q => q == (1 : ℚ)) ∘
      fun k => if k < lenKeep noise.length r then (0 : ℚ) else 1) =
      fun k => decide (lenKeep noise.length r ≤ k) := by
    funext k
    by_cases h : k < lenKeep noise.length r
    · simp [h, Nat.not_le.mpr h]
    · simp [h, Nat.le_of_not_lt h]
  rw [hfun, List.Perm.countP_eq _ (ids_restore_perm noise),
    countP_ge_range]

theorem lenKeep_le (N : ℕ) (r : ℚ) (hr0 : 0 ≤ r) : lenKeep N r ≤ N := by
  have h1 : (N : ℚ) * (1 - r) ≤ (N : ℚ) :=
    mul_le_of_le_one_right (by positivity) (by linarith)
  calc lenKeep N r ≤ ⌊(N : ℚ)⌋₊ := Nat.floor_le_floor h1
    _ = N := Nat.floor_natCast _

/-- C3.  For every mask ratio in `[0, 1)`, `random_masking` keeps exactly
`floor(N * (1 - r))` visible patches — the first `len_keep` shuffled indices
— and the returned binary mask has exactly that many zeros and
`N - floor(N * (1 - r))` ones per row. -/
theorem random_masking_counts {α β : Type} [LinearOrder β] [Inhabited β]
    (noise : List β) (x : ℕ → α) (r : ℚ) (hr0 : 0 ≤ r) (hr1 : r < 1) :
    (maskedSeq x noise r).length = lenKeep noise.length r ∧
    (maskRow noise r).count 0 = lenKeep noise.length r ∧
    (maskRow noise r).count 1 = noise.length - lenKeep noise.length r ∧
    ∀ d : α, ∀ j < lenKeep noise.length r,
      (maskedSeq x noise r).getD j d =
        x ((ids_shuffle noise).getD j 0) := by
  have hle : lenKeep noise.length r ≤ noise.length :=
    lenKeep_le noise.length r hr0
  refine ⟨?_, ?_, ?_, ?_⟩
  · rw [maskedSeq_length]; omega
  · rw [maskRow_count_zero]; omega
  · rw [maskRow_count_one]; omega
  · intro d j hj
    rw [maskedSeq]
    rw [getD_map_of_lt x (ids_keep noise r) d 0
      (by rw [ids_keep, List.length_take, ids_shuffle_length]; omega),
      ids_keep_getD noise r (by omega)]

/-- Witness for C3 at a concrete noise row with ratio 1/2. -/
theorem random_masking_counts_witness :
    (maskedSeq (fun k => k) ([1, 0, 3, 2] : List ℕ) (1 / 2)).length =
      lenKeep ([1, 0, 3, 2] : List ℕ).length (1 / 2) ∧
    (maskRow ([1, 0, 3, 2] : List ℕ) (1 / 2)).count 0 =
      lenKeep ([1, 0, 3, 2] : List ℕ).length (1 / 2) ∧
    (maskRow ([1, 0, 3, 2] : List ℕ) (1 / 2)).count 1 =
      ([1, 0, 3, 2] : List ℕ).length -
        lenKeep ([1, 0, 3, 2] : List ℕ).length (1 / 2) ∧
    ∀ d : ℕ, ∀ j < lenKeep ([1, 0, 3, 2] : List ℕ).length (1 / 2),
      (maskedSeq (fun k => k) ([1, 0, 3, 2] : List ℕ) (1 / 2)).getD j d =
        (fun k => k) ((ids_shuffle ([1, 0, 3, 2] : List ℕ)).getD j 0) :=
  random_masking_counts ([1, 0, 3, 2] : List ℕ) (fun k => k) (1 / 2)
    (by norm_num) (by norm_num)

/-- C4 (counterexample).  With 4 patches and mask ratio 3/10 the mask holds
`4 - floor(4 * 7/10) = 2` ones per row, while `round(4 * 3/10) = 1`; the
claimed `round(num_patches * mask_ratio)` count is wrong. -/
theorem C4_cex :
    (maskRow ([0, 1, 2, 3] : List ℕ) (3 / 10)).count 1 = 2 ∧
      round ((4 : ℚ) * (3 / 10)) = 1 ∧
      ¬ (((maskRow ([0, 1, 2, 3] : List ℕ) (3 / 10)).count 1 : ℤ) =
          round ((4 : ℚ) * (3 / 10))) := by
  have hlk : lenKeep ([0, 1, 2, 3] : List ℕ).length (3 / 10) = 2 := by
    rw [lenKeep, Nat.floor_eq_iff (by norm_num)]
    norm_num
  have hcount : (maskRow ([0, 1, 2, 3] : List ℕ) (3 / 10)).count 1 = 2 := by
    rw [maskRow_count_one, hlk]
    norm_num
  have hround : round ((4 : ℚ) * (3 / 10)) = 1 := by
    norm_num [round_eq]
  exact ⟨hcount, hround, by rw [hcount, hround]; decide⟩

/-- C4 (amended).  The count of ones per row of the mask produced by
`random_masking` equals `N - floor(N * (1 - r))` (the number of dropped
patches, i.e. the ceiling of `N * r`), not its rounding. -/
theorem random_masking_ones {β : Type} [LinearOrder β] [Inhabited β]
    (noise : List β) (r : ℚ) (hr0 : 0 ≤ r) (hr1 : r < 1) :
    (maskRow noise r).count 1 =
      noise.length - lenKeep noise.length r := by
  have hle : lenKeep noise.length r ≤ noise.length :=
    lenKeep_le noise.length r hr0
  rw [maskRow_count_one]; omega

/-- Witness for the amended C4 theorem at mask ratio 3/4 over 4 patches. -/
theorem random_masking_ones_witness :
    (maskRow ([0, 1, 2, 3] : List ℕ) (3 / 4)).count 1 =
      ([0, 1, 2, 3] : List ℕ).length -
        lenKeep ([0, 1, 2, 3] : List ℕ).length (3 / 4) :=
  random_masking_ones ([0, 1, 2, 3] : List ℕ) (3 / 4) (by norm_num)
    (by norm_num)

/-!  ## Reconstruction losses

The two `mae_loss` implementations
(src/experiments/mae_vit_high/losses.py and
src/experiments/mae_vit_medium/losses.py) over tensors of shape
`(B, N, D)` (prediction, target) and `(B, N)` (mask).  `tensor.mean` over
the last axis is sum divided by `D`; `.sum()` is the sum over all entries. -/

/-- Per-patch MSE `((pred - target) ** 2).mean(dim=-1)` (both variants). -/
def patchMSE (D : ℕ) (pred target : ℕ → ℕ → ℕ → ℚ) (b n : ℕ) : ℚ :=
  (∑ d ∈ Finset.range D, (pred b n d - target b n d) ^ 2) / D

/-- `mae_loss` of the high variant (losses.py lines 4-19): per-patch MSE;
if `mask.sum() == 0` return the plain mean over all `B * N` patches,
otherwise the mask-weighted sum divided by the mask sum. -/
def mae_loss_high (B N D : ℕ) (pred target : ℕ → ℕ → ℕ → ℚ)
    (mask : ℕ → ℕ → ℚ) : ℚ :=
  let loss := fun b n => patchMSE D pred target b n
  let maskSum := ∑ b ∈ Finset.range B, ∑ n ∈ Finset.range N, mask b n
  if maskSum = 0 then
    (∑ b ∈ Finset.range B, ∑ n ∈ Finset.range N, loss b n) / (B * N)
  else
    (∑ b ∈ Finset.range B, ∑ n ∈ Finset.range N, loss b n * mask b n) /
      maskSum

/-- `mae_loss` of the medium variant (losses.py lines 6-19): the
mask-weighted sum of per-patch MSE divided by `mask.sum().clamp(min=1.0)`. -/
def mae_loss_medium (B N D : ℕ) (pred target : ℕ → ℕ → ℕ → ℚ)
    (mask : ℕ → ℕ → ℚ) : ℚ :=
  let mse := fun b n => patchMSE D pred target b n
  (∑ b ∈ Finset.range B, ∑ n ∈ Finset.range N, mse b n * mask b n) /
    max (∑ b ∈ Finset.range B, ∑ n ∈ Finset.range N, mask b n) 1

/-- C5.  With an all-zero mask neither variant divides by zero: the high
variant takes its explicit fallback branch and returns the mean of the
per-patch MSE over all `B * N` positions, while the medium variant clamps
the denominator to 1 and returns zero. -/
theorem mae_loss_zero_mask (B N D : ℕ) (pred target : ℕ → ℕ → ℕ → ℚ)
    (mask : ℕ → ℕ → ℚ) (hmask : ∀ b < B, ∀ n < N, mask b n = 0) :
    mae_loss_high B N D pred target mask =
      (∑ b ∈ Finset.range B, ∑ n ∈ Finset.range N,
        patchMSE D pred target b n) / (B * N) ∧
    mae_loss_medium B N D pred target mask = 0 := by
  have hsum : (∑ b ∈ Finset.range B, ∑ n ∈ Finset.range N, mask b n) = 0 := by
    apply Finset.sum_eq_zero
    intro b hb
    apply Finset.sum_eq_zero
    intro n hn
    exact hmask b (Finset.mem_range.mp hb) n (Finset.mem_range.mp hn)
  constructor
  · simp only [mae_loss_high]
    rw [if_pos hsum]
  · simp only [mae_loss_medium]
    have hnum : (∑ b ∈ Finset.range B, ∑ n ∈ Finset.range N,
        patchMSE D pred target b n * mask b n) = 0 := by
      apply Finset.sum_eq_zero
      intro b hb
      apply Finset.sum_eq_zero
      intro n hn
      rw [hmask b (Finset.mem_range.mp hb) n (Finset.mem_range.mp hn),
        mul_zero]
    rw [hnum, hsum]
    norm_num

/-- Witness for C5 with a 1-patch batch and the zero mask. -/
theorem mae_loss_zero_mask_witness :
    mae_loss_high 1 1 1 (fun _ _ _ => 0) (fun _ _ _ => 1)
        (fun _ _ => 0) =
      (∑ b ∈ Finset.range 1, ∑ n ∈ Finset.range 1,
        patchMSE 1 (fun _ _ _ => 0) (fun _ _ _ => 1) b n) / (1 * 1) ∧
    mae_loss_medium 1 1 1 (fun _ _ _ => 0) (fun _ _ _ => 1)
        (fun _ _ => 0) = 0 :=
  mae_loss_zero_mask 1 1 1 (fun _ _ _ => 0) (fun _ _ _ => 1)
    (fun _ _ => 0) (fun _ _ _ _ => rfl)

/-- A finite sum of rationals that are each 0 or 1 is a natural number. -/
theorem sum_binary_is_nat {ι : Type} (s : Finset ι) (f : ι → ℚ)
    (hf : ∀ i ∈ s, f i = 0 ∨ f i = 1) :
    ∃ m : ℕ, ∑ i ∈ s, f i = m := by
  classical
  induction s using Finset.cons_induction with
  | empty => exact ⟨0, by simp⟩
  | cons a s ha ih =>
      obtain ⟨m, hm⟩ := ih (fun i hi => hf i (Finset.mem_cons_of_mem hi))
      rcases hf a (Finset.mem_cons_self a s) with h | h
      · exact ⟨m, by rw [Finset.sum_cons, h, hm, zero_add]⟩
      · exact ⟨m + 1, by rw [Finset.sum_cons, h, hm]; push_cast; ring⟩

/-- A binary mask with nonzero sum has sum at least 1. -/
theorem mask_sum_ge_one (B N : ℕ) (mask : ℕ → ℕ → ℚ)
    (hbin : ∀ b < B, ∀ n < N, mask b n = 0 ∨ mask b n = 1)
    (hne : (∑ b ∈ Finset.range B, ∑ n ∈ Finset.range N, mask b n) ≠ 0) :
    1 ≤ ∑ b ∈ Finset.range B, ∑ n ∈ Finset.range N, mask b n := by
  have hprod : (∑ x ∈ Finset.range B ×ˢ Finset.range N, mask x.1 x.2) =
      ∑ b ∈ Finset.range B, ∑ n ∈ Finset.range N, mask b n :=
    Finset.sum_product (Finset.range B) (Finset.range N)
      (fun x => mask x.1 x.2)
  obtain ⟨m, hm⟩ := sum_binary_is_nat (Finset.range B ×ˢ Finset.range N)
    (fun x => mask x.1 x.2)
    (fun x hx => by
      rw [Finset.mem_product, Finset.mem_range, Finset.mem_range] at hx
      exact hbin x.1 hx.1 x.2 hx.2)
  rw [← hprod, hm]
  rw [← hprod, hm] at hne
  have hm0 : m ≠ 0 := by
    intro h0
    rw [h0] at hne
    exact hne (by norm_num)
  exact_mod_cast Nat.one_le_iff_ne_zero.mpr hm0

/-- Core fact behind C6: on any binary mask with at least one masked entry
the two `mae_loss` implementations return the same rational. -/
theorem mae_loss_equiv_aux (B N D : ℕ) (pred target : ℕ → ℕ → ℕ → ℚ)
    (mask : ℕ → ℕ → ℚ)
    (hbin : ∀ b < B, ∀ n < N, mask b n = 0 ∨ mask b n = 1)
    (hne : (∑ b ∈ Finset.range B, ∑ n ∈ Finset.range N, mask b n) ≠ 0) :
    mae_loss_high B N D pred target mask =
      mae_loss_medium B N D pred target mask := by
  have h1 : 1 ≤ ∑ b ∈ Finset.range B, ∑ n ∈ Finset.range N, mask b n :=
    mask_sum_ge_one B N mask hbin hne
  simp only [mae_loss_high, mae_loss_medium]
  rw [if_neg hne, max_eq_left h1]

/-- The inconsistency asserted by the spec, as a proposition: some pair of
prediction/target tensors and some binary mask with nonzero sum on which the
two `mae_loss` implementations disagree. -/
def lossPoliciesDisagree : Prop :=
  ∃ (B N D : ℕ) (pred target : ℕ → ℕ → ℕ → ℚ) (mask : ℕ → ℕ → ℚ),
    (∀ b < B, ∀ n < N, mask b n = 0 ∨ mask b n = 1) ∧
    (∑ b ∈ Finset.range B, ∑ n ∈ Finset.range N, mask b n) ≠ 0 ∧
    mae_loss_high B N D pred target mask ≠
      mae_loss_medium B N D pred target mask

/-- C6 (counterexample).  The claimed inconsistency does not exist: for
every binary nonzero mask the two implementations agree (both include
visible patches down-weighted to zero and divide by the mask sum; the
medium variant's clamp is inactive when the sum is at least 1). -/
theorem C6_cex : ¬ lossPoliciesDisagree := by
  rintro ⟨B, N, D, pred, target, mask, hbin, hne, hdis⟩
  exact hdis (mae_loss_equiv_aux B N D pred target mask hbin hne)

/-- C6 (amended).  The two variants implement the same loss policy on every
binary mask with a nonzero entry; they differ only in the all-zero-mask
fallback (high: mean over all patches; medium: zero). -/
theorem mae_loss_agree_on_nonzero_masks (B N D : ℕ)
    (pred target : ℕ → ℕ → ℕ → ℚ) (mask : ℕ → ℕ → ℚ)
    (hbin : ∀ b < B, ∀ n < N, mask b n = 0 ∨ mask b n = 1)
    (hne : (∑ b ∈ Finset.range B, ∑ n ∈ Finset.range N, mask b n) ≠ 0) :
    mae_loss_high B N D pred target mask =
      mae_loss_medium B N D pred target mask :=
  mae_loss_equiv_aux B N D pred target mask hbin hne

/-- Witness for the amended C6 theorem: one patch, fully masked. -/
theorem mae_loss_agree_on_nonzero_masks_witness :
    mae_loss_high 1 1 1 (fun _ _ _ => 0) (fun _ _ _ => 1) (fun _ _ => 1) =
      mae_loss_medium 1 1 1 (fun _ _ _ => 0) (fun _ _ _ => 1)
        (fun _ _ => 1) :=
  mae_loss_agree_on_nonzero_masks 1 1 1 (fun _ _ _ => 0) (fun _ _ _ => 1)
    (fun _ _ => 1) (fun _ _ _ _ => Or.inr rfl) (by norm_num)

/-!  ## Forward-pass shape pipeline

The tensor shapes produced by `MAEViT.forward`
(src/experiments/mae_vit_medium/model.py, lines 147-184; the high variant's
`forward`, model.py lines 158-161, produces the same `pred`/`mask` shapes).
Each field mirrors one step of the source. -/

/-- The constructor arguments of `MAEViT` that determine shapes. -/
structure MAEConfig where
  imgSize : ℕ
  patchSize : ℕ
  inChans : ℕ
  embedDim : ℕ
  decoderEmbedDim : ℕ
  maskRatio : ℚ

/-- `num_patches = (img_size // patch_size) ** 2` (PatchEmbed, model.py
line 14; high variant model.py line 53). -/
def numPatches (cfg : MAEConfig) : ℕ :=
  (cfg.imgSize / cfg.patchSize) ^ 2

/-- The shapes of the intermediate and output tensors of one forward pass.
`pred` and `maskShape` are the shapes of the returned prediction and mask. -/
structure ForwardShapes where
  patchEmbedOut : ℕ × ℕ × ℕ
  visible : ℕ × ℕ × ℕ
  maskShape : ℕ × ℕ
  decoderCat : ℕ × ℕ × ℕ
  restored : ℕ × ℕ × ℕ
  pred : ℕ × ℕ × ℕ

/-- Shape semantics of `MAEViT.forward` on a batch of `B` images: patch
embedding flattens to `(B, N, embed_dim)`; `random_masking` keeps
`len_keep` patches; the decoder concatenates `num_patches - len_keep` mask
tokens, gathers along `ids_restore` (per-row length `N`), and projects to
`patch_size * patch_size * in_chans`.  Transformer blocks and layer norms
preserve shapes. -/
def forwardShapes (cfg : MAEConfig) (B : ℕ) : ForwardShapes :=
  let N := numPatches cfg
  let lk := lenKeep N cfg.maskRatio
  { patchEmbedOut := (B, N, cfg.embedDim)
    visible := (B, lk, cfg.embedDim)
    maskShape := (B, N)
    decoderCat := (B, lk + (N - lk), cfg.decoderEmbedDim)
    restored := (B, N, cfg.decoderEmbedDim)
    pred := (B, N, cfg.patchSize * cfg.patchSize * cfg.inChans) }

/-- C7.  With `img_size=32, patch_size=4, mask_ratio=0.75` and a batch of 2
images, `pred` has shape `(2, 64, 48)`, the mask has shape `(2, 64)`, and —
whatever noise `torch.rand` draws — every mask row holds exactly 48 ones. -/
theorem forward_img32_patch4 :
    (forwardShapes ⟨32, 4, 3, 256, 128, 3 / 4⟩ 2).pred = (2, 64, 48) ∧
    (forwardShapes ⟨32, 4, 3, 256, 128, 3 / 4⟩ 2).maskShape = (2, 64) ∧
    ∀ noise : List ℚ, noise.length = 64 →
      (maskRow noise (3 / 4)).count 1 = 48 := by
  refine ⟨rfl, rfl, ?_⟩
  intro noise hlen
  have hlk : lenKeep 64 (3 / 4) = 16 := by
    rw [lenKeep, Nat.floor_eq_iff (by norm_num)]
    norm_num
  have h := maskRow_count_one noise (3 / 4)
  rw [hlen, hlk] at h
  rw [h]
  decide

/-- Witness for C7 with an arbitrary concrete noise row of length 64. -/
theorem forward_img32_patch4_witness :
    (maskRow (List.map (fun i : ℕ => (i : ℚ)) (List.range 64)) (3 / 4)).count
      1 = 48 :=
  forward_img32_patch4.2.2 (List.map (fun i : ℕ => (i : ℚ)) (List.range 64))
    (by rw [List.length_map, List.length_range])

/-!  ## Determinism of the forward pass

`MAEViT.forward` consumes ambient randomness only through the single
`torch.rand(B, N)` call inside `random_masking`.  The generator is modelled
as a value stream together with a cursor; `torch.rand(B, N)` reads the next
`B * N` stream values row-major and advances the cursor.  The deterministic
network modules (patch embedding plus positional embedding, encoder,
decoder, prediction head) are functions of the parameters and are abstracted
by the per-row embedded patch sequence `x` and the mask token. -/

/-- The noise row that `torch.rand(B, N)` hands row `b`, when the stream
cursor is at `ctr`. -/
def rowNoise {β : Type} (rng : ℕ → β) (ctr N b : ℕ) : List β :=
  (List.range N).map (fun j => rng (ctr + b * N + j))

/-- The randomness-consuming core of one `MAEViT.forward` invocation:
per-row visible sequence, mask and restored decoder sequence, plus the
advanced stream cursor. -/
def forwardRun {α β : Type} [LinearOrder β] [Inhabited β] (B N : ℕ)
    (r : ℚ) (x : ℕ → ℕ → α) (maskTok : α) (rng : ℕ → β) (ctr : ℕ) :
    (ℕ → List α) × (ℕ → List ℚ) × (ℕ → List α) × ℕ :=
  (fun b => maskedSeq (x b) (rowNoise rng ctr N b) r,
   fun b => maskRow (rowNoise rng ctr N b) r,
   fun b => restoreRow (maskedSeq (x b) (rowNoise rng ctr N b) r) maskTok
     (rowNoise rng ctr N b),
   ctr + B * N)

/-- C8.  Two invocations of the forward pass with identical inputs,
identical parameters (abstracted into `x` and `maskTok`) and identical
ambient random state (stream and cursor) produce identical outputs and
identical final random states. -/
theorem forward_deterministic {α β : Type} [LinearOrder β] [Inhabited β]
    (B N : ℕ) (r : ℚ) (x1 x2 : ℕ → ℕ → α) (maskTok : α)
    (rng1 rng2 : ℕ → β) (c1 c2 : ℕ)
    (hrng : rng1 = rng2) (hc : c1 = c2) (hx : x1 = x2) :
    forwardRun B N r x1 maskTok rng1 c1 =
      forwardRun B N r x2 maskTok rng2 c2 := by
  subst hrng; subst hc; subst hx; rfl

/-- Witness for C8 at a concrete stream, cursor and input. -/
theorem forward_deterministic_witness :
    forwardRun 1 2 (1 / 2) (fun _ k => k) 0 (fun k => k) 0 =
      forwardRun 1 2 (1 / 2) (fun _ k => k) 0 (fun k => k) 0 :=
  forward_deterministic 1 2 (1 / 2) (fun _ k => k) (fun _ k => k) 0
    (fun k => k) (fun k => k) 0 0 rfl rfl rfl

/-!  ## Patch-codec preconditions -/

/-- `patchify` with its assertion (utils.py line 72): `none` models the
`AssertionError` raised when height or width is not divisible by the patch
size. -/
def patchifyChecked {α : Type} (C H W p : ℕ)
    (imgs : ℕ → ℕ → ℕ → ℕ → α) : Option (ℕ → ℕ → ℕ → α) :=
  if H % p = 0 ∧ W % p = 0 then some (patchify C W p imgs) else none

/-- `unpatchify` with its assertion (utils.py lines 89-90):
`h = w = int(math.sqrt(N))` followed by `assert h * w == N`; `none` models
the `AssertionError` raised when `N` is not a perfect square. -/
def unpatchifyChecked {α : Type} (p C N : ℕ) (patches : ℕ → ℕ → ℕ → α) :
    Option (ℕ → ℕ → ℕ → ℕ → α) :=
  if Nat.sqrt N * Nat.sqrt N = N then some (unpatchify p C N patches)
  else none

/-- C9.  For positive patch size, `patchify` succeeds exactly when height
and width are divisible by the patch size, and `unpatchify` succeeds
exactly when the patch count is a perfect square; on valid inputs neither
raises. -/
theorem patch_codec_preconditions {α : Type} (C H W p N : ℕ) (hp : 0 < p)
    (imgs : ℕ → ℕ → ℕ → ℕ → α) (patches : ℕ → ℕ → ℕ → α) :
    ((patchifyChecked C H W p imgs).isSome ↔ (H % p = 0 ∧ W % p = 0)) ∧
    ((unpatchifyChecked p C N patches).isSome ↔ ∃ k, k * k = N) := by
  constructor
  · rw [patchifyChecked]
    split_ifs with h <;> simp [h]
  · rw [unpatchifyChecked]
    split_ifs with h
    · simp only [Option.isSome_some, true_iff]
      exact ⟨Nat.sqrt N, h⟩
    · simp only [Option.isSome_none, Bool.false_eq_true, false_iff]
      rintro ⟨k, rfl⟩
      apply h
      have hs : Nat.sqrt (k * k) = k := by
        rw [← pow_two]; exact Nat.sqrt_eq' k
      rw [hs]

/-- Witness for C9 on a 4×4 single-channel image with patch size 2. -/
theorem patch_codec_preconditions_witness :
    ((patchifyChecked 1 4 4 2 cexImg).isSome ↔ (4 % 2 = 0 ∧ 4 % 2 = 0)) ∧
    ((unpatchifyChecked 2 1 4 (patchify 1 4 2 cexImg)).isSome ↔
      ∃ k, k * k = 4) :=
  patch_codec_preconditions 1 4 4 2 4 (by decide) cexImg
    (patchify 1 4 2 cexImg)

/-!  ## Configuration overrides

`apply_overrides` (src/experiments/mae_vit_high/utils.py lines 32-44;
src/experiments/mae_vit_medium/utils.py lines 45-68).  Python strings are
modelled as lists of characters; `s.split(sep, 1)` becomes `splitFirst`
(which is `none` exactly when the separator does not occur, the condition
of the `"=" not in ov: continue` guard), `s.split(".")` becomes `splitAll`,
`s.strip()` becomes `pyStrip`.  A Python dict is an insertion-ordered
association list with unique keys.  The leaf-value parsers (`parse_value`
resp. `yaml.safe_load` with a string fallback) are irrelevant to key
addressing and passed as an opaque function `parse`. -/

/-- A configuration key component, as a character list. -/
abbrev Token : Type := List Char

/-- Nested configuration values: a parsed scalar or a nested dict. -/
inductive Cfg (V : Type) : Type
  | leaf : V → Cfg V
  | node : List (Token × Cfg V) → Cfg V

/-- Dict lookup `d[k]` (`None`-valued when `k not in d`). -/
def lookupKey {V : Type} : List (Token × Cfg V) → Token → Option (Cfg V)
  | [], _ => none
  | e :: es, k => if e.1 = k then some e.2 else lookupKey es k

/-- Dict assignment `d[k] = v`: replace in place, else append. -/
def setKey {V : Type} : List (Token × Cfg V) → Token → Cfg V →
    List (Token × Cfg V)
  | [], k, v => [(k, v)]
  | e :: es, k, v => if e.1 = k then (k, v) :: es else e :: setKey es k v

/-- The entries of `d[k]` when it is a dict, else those of a fresh `{}`
(the `if k not in d or not isinstance(d[k], dict): d[k] = {}` step). -/
def subEntries {V : Type} : Option (Cfg V) → List (Token × Cfg V)
  | some (Cfg.node es) => es
  | _ => []

/-- The nested-key walk shared by both variants (high utils.py lines 37-43,
medium `_set_in_dict` utils.py lines 45-51): descend along all but the last
dotted component, replacing a missing or non-dict intermediate entry by a
fresh dict, and assign the value at the last component.  The key list comes
from `split(".")` and is never empty; the `[]` clause is dead code. -/
def setPath {V : Type} : List (Token × Cfg V) → List Token → V →
    List (Token × Cfg V)
  | es, [], _ => es
  | es, k :: ks, v =>
      match ks with
      | [] => setKey es k (Cfg.leaf v)
      | _ :: _ =>
          setKey es k
            (Cfg.node (setPath (subEntries (lookupKey es k)) ks v))

/-- Reading a dotted key path from a configuration. -/
def lookupPath {V : Type} : List (Token × Cfg V) → List Token →
    Option (Cfg V)
  | _, [] => none
  | es, k :: ks =>
      match ks with
      | [] => lookupKey es k
      | _ :: _ =>
          match lookupKey es k with
          | some (Cfg.node sub) => lookupPath sub ks
          | _ => none

/-- Python `s.split(sep)` for a one-character separator, no maxsplit. -/
def splitAll (c : Char) : List Char → List (List Char)
  | [] => [[]]
  | a :: s =>
      if a = c then [] :: splitAll c s
      else
        match splitAll c s with
        | [] => [[a]]
        | t :: ts => (a :: t) :: ts

/-- Python `s.split(sep, 1)`: `none` exactly when `sep not in s`, else the
parts before and after the first occurrence. -/
def splitFirst (c : Char) : List Char → Option (List Char × List Char)
  | [] => none
  | a :: s =>
      if a = c then some ([], s)
      else
        match splitFirst c s with
        | none => none
        | some kv => some (a :: kv.1, kv.2)

/-- Python `s.strip()`: drop whitespace from both ends. -/
def pyStrip (s : List Char) : List Char :=
  ((s.dropWhile Char.isWhitespace).reverse.dropWhile
    Char.isWhitespace).reverse

/-- One iteration of the high variant's `apply_overrides` loop (utils.py
lines 33-43): skip the token when it has no `=`; else split at the first
`=`, split the key at dots, walk and assign. -/
def applyOneHigh {V : Type} (parse : List Char → V)
    (cfg : List (Token × Cfg V)) (ov : List Char) :
    List (Token × Cfg V) :=
  match splitFirst '=' ov with
  | none => cfg
  | some kv => setPath cfg (splitAll '.' kv.1) (parse kv.2)

/-- `apply_overrides` of the high variant. -/
def apply_overrides_high {V : Type} (parse : List Char → V)
    (cfg : List (Token × Cfg V)) (ovs : List (List Char)) :
    List (Token × Cfg V) :=
  ovs.foldl (applyOneHigh parse) cfg

/-- One iteration of the medium variant's loop (utils.py lines 54-67): skip
the token when it has no `=`; strip key and value; skip tokens whose
stripped key is empty; else walk and assign. -/
def applyOneMed {V : Type} (parse : List Char → V)
    (cfg : List (Token × Cfg V)) (ov : List Char) :
    List (Token × Cfg V) :=
  match splitFirst '=' ov with
  | none => cfg
  | some kv =>
      let key := pyStrip kv.1
      if key = [] then cfg
      else setPath cfg (splitAll '.' key) (parse (pyStrip kv.2))

/-- `apply_overrides` of the medium variant. -/
def apply_overrides_medium {V : Type} (parse : List Char → V)
    (cfg : List (Token × Cfg V)) (ovs : List (List Char)) :
    List (Token × Cfg V) :=
  ovs.foldl (applyOneMed parse) cfg

/-- Two dotted key paths diverge when their components differ at some
position present in both; lookups at diverging paths are independent (the
paths address disjoint parts of the nesting tree). -/
inductive Diverges : List Token → List Token → Prop
  | head (a b : Token) (ks qs : List Token) :
      a ≠ b → Diverges (a :: ks) (b :: qs)
  | cons (a : Token) (ks qs : List Token) :
      Diverges ks qs → Diverges (a :: ks) (a :: qs)

theorem Diverges.ne_nil {ks qs : List Token} (h : Diverges ks qs) :
    ks ≠ [] ∧ qs ≠ [] := by
  cases h <;> exact ⟨List.cons_ne_nil _ _, List.cons_ne_nil _ _⟩

theorem splitFirst_eq_none_of_not_mem {c : Char} {s : List Char}
    (h : ¬ c ∈ s) : splitFirst c s = none := by
  induction s with
  | nil => rfl
  | cons a s ih =>
      rw [splitFirst, if_neg (by
        intro hac
        exact h (by rw [← hac]; exact List.mem_cons_self a s))]
      rw [ih (fun hmem => h (List.mem_cons_of_mem a hmem))]

theorem splitAll_ne_nil (c : Char) (s : List Char) : splitAll c s ≠ [] := by
  cases s with
  | nil => simp [splitAll]
  | cons a s =>
      rw [splitAll]
      by_cases h : a = c
      · simp [h]
      · rw [if_neg h]
        cases hs : splitAll c s <;> simp

theorem lookupKey_setKey_self {V : Type} (es : List (Token × Cfg V))
    (k : Token) (v : Cfg V) : lookupKey (setKey es k v) k = some v := by
  induction es with
  | nil => simp [setKey, lookupKey]
  | cons e es ih =>
      rw [setKey]
      by_cases h : e.1 = k
      · rw [if_pos h, lookupKey, if_pos rfl]
      · rw [if_neg h, lookupKey, if_neg h]
        exact ih

theorem lookupKey_setKey_ne {V : Type} (es : List (Token × Cfg V))
    {k q : Token} (h : k ≠ q) (v : Cfg V) :
    lookupKey (setKey es k v) q = lookupKey es q := by
  induction es with
  | nil => simp [setKey, lookupKey, h]
  | cons e es ih =>
      rw [setKey]
      by_cases he : e.1 = k
      · rw [if_pos he, lookupKey, if_neg h, lookupKey,
          if_neg (by rw [he]; exact h)]
      · rw [if_neg he, lookupKey, lookupKey]
        by_cases hq : e.1 = q
        · rw [if_pos hq, if_pos hq]
        · rw [if_neg hq, if_neg hq]
          exact ih

theorem setPath_single {V : Type} (es : List (Token × Cfg V)) (k : Token)
    (v : V) : setPath es [k] v = setKey es k (Cfg.leaf v) := rfl

theorem setPath_cons_cons {V : Type} (es : List (Token × Cfg V))
    (k t : Token) (ts : List Token) (v : V) :
    setPath es (k :: t :: ts) v =
      setKey es k
        (Cfg.node (setPath (subEntries (lookupKey es k)) (t :: ts) v)) :=
  rfl

theorem lookupPath_single {V : Type} (es : List (Token × Cfg V))
    (k : Token) : lookupPath es [k] = lookupKey es k := rfl

theorem lookupPath_cons_cons {V : Type} (es : List (Token × Cfg V))
    (b t : Token) (ts : List Token) :
    lookupPath es (b :: t :: ts) =
      match lookupKey es b with
      | some (Cfg.node sub) => lookupPath sub (t :: ts)
      | _ => none :=
  rfl

/-- Writing a dotted path and reading it back yields the written leaf. -/
theorem lookupPath_setPath_self {V : Type} (v : V) :
    ∀ (ks : List Token) (es : List (Token × Cfg V)), ks ≠ [] →
      lookupPath (setPath es ks v) ks = some (Cfg.leaf v) := by
  intro ks
  induction ks with
  | nil => intro es h; exact absurd rfl h
  | cons k ks ih =>
      intro es h
      cases ks with
      | nil =>
          rw [setPath_single, lookupPath_single, lookupKey_setKey_self]
      | cons k2 ks2 =>
          rw [setPath_cons_cons, lookupPath_cons_cons,
            lookupKey_setKey_self]
          exact ih (subEntries (lookupKey es k)) (List.cons_ne_nil _ _)

/-- Writing a dotted path leaves every diverging path unchanged. -/
theorem lookupPath_setPath_diverge {V : Type} (v : V)
    {ks qs : List Token} (hdiv : Diverges ks qs) :
    ∀ es : List (Token × Cfg V),
      lookupPath (setPath es ks v) qs = lookupPath es qs := by
  induction hdiv with
  | head a b ks qs hne =>
      intro es
      cases ks with
      | nil =>
          cases qs with
          | nil =>
              rw [setPath_single, lookupPath_single, lookupPath_single,
                lookupKey_setKey_ne _ hne]
          | cons q2 qs2 =>
              rw [setPath_single, lookupPath_cons_cons,
                lookupPath_cons_cons, lookupKey_setKey_ne _ hne]
      | cons k2 ks2 =>
          cases qs with
          | nil =>
              rw [setPath_cons_cons, lookupPath_single,
                lookupPath_single, lookupKey_setKey_ne _ hne]
          | cons q2 qs2 =>
              rw [setPath_cons_cons, lookupPath_cons_cons,
                lookupPath_cons_cons, lookupKey_setKey_ne _ hne]
  | cons a ks qs hdiv ih =>
      intro es
      obtain ⟨hks, hqs⟩ := hdiv.ne_nil
      obtain ⟨k2, ks2, rfl⟩ : ∃ k2 ks2, ks = k2 :: ks2 := by
        cases ks with
        | nil => exact absurd rfl hks
        | cons k2 ks2 => exact ⟨k2, ks2, rfl⟩
      obtain ⟨q2, qs2, rfl⟩ : ∃ q2 qs2, qs = q2 :: qs2 := by
        cases qs with
        | nil => exact absurd rfl hqs
        | cons q2 qs2 => exact ⟨q2, qs2, rfl⟩
      rw [setPath_cons_cons, lookupPath_cons_cons, lookupKey_setKey_self,
        lookupPath_cons_cons es]
      show lookupPath
        (setPath (subEntries (lookupKey es a)) (k2 :: ks2) v)
        (q2 :: qs2) = _
      rw [ih]
      cases hes : lookupKey es a with
      | none =>
          simp only [subEntries, lookupPath, lookupKey]
          cases qs2 <;> rfl
      | some c =>
          cases c with
          | leaf u =>
              simp only [subEntries, lookupPath, lookupKey]
              cases qs2 <;> rfl
          | node sub => simp [subEntries]

/-- C10 (counterexample).  The override token `"=1"` contains `=`, yet the
medium variant does not set its addressed dotted key: the stripped key is
empty, so the token is skipped and the configuration stays unchanged. -/
theorem C10_cex :
    '=' ∈ ['=', '1'] ∧
    apply_overrides_medium (fun s => s)
      ([] : List (Token × Cfg (List Char))) [['=', '1']] = [] :=
  ⟨List.mem_cons_self _ _, rfl⟩

/-- C10 (amended).  In both variants an override token without `=` is
silently skipped and the configuration is unchanged (no error).  A token
with `=` sets only the addressed dotted key: looking the addressed key up
afterwards yields the parsed value, and every dotted path diverging from it
reads unchanged — except that the medium variant additionally skips tokens
whose stripped key is empty (the high variant then addresses the empty
key). -/
theorem apply_overrides_one_token {V : Type} (parse : List Char → V)
    (cfg : List (Token × Cfg V)) (ov : List Char) :
    (¬ '=' ∈ ov →
      apply_overrides_high parse cfg [ov] = cfg ∧
      apply_overrides_medium parse cfg [ov] = cfg) ∧
    (∀ k v, splitFirst '=' ov = some (k, v) →
      (lookupPath (apply_overrides_high parse cfg [ov])
          (splitAll '.' k) = some (Cfg.leaf (parse v)) ∧
        ∀ qs, Diverges (splitAll '.' k) qs →
          lookupPath (apply_overrides_high parse cfg [ov]) qs =
            lookupPath cfg qs) ∧
      (pyStrip k = [] → apply_overrides_medium parse cfg [ov] = cfg) ∧
      (pyStrip k ≠ [] →
        lookupPath (apply_overrides_medium parse cfg [ov])
            (splitAll '.' (pyStrip k)) =
          some (Cfg.leaf (parse (pyStrip v))) ∧
        ∀ qs, Diverges (splitAll '.' (pyStrip k)) qs →
          lookupPath (apply_overrides_medium parse cfg [ov]) qs =
            lookupPath cfg qs)) := by
  constructor
  · intro hne
    have hsf : splitFirst '=' ov = none :=
      splitFirst_eq_none_of_not_mem hne
    constructor
    · show applyOneHigh parse cfg ov = cfg
      rw [applyOneHigh, hsf]
    · show applyOneMed parse cfg ov = cfg
      rw [applyOneMed, hsf]
  · intro k v hsf
    have hhigh : apply_overrides_high parse cfg [ov] =
        setPath cfg (splitAll '.' k) (parse v) := by
      show applyOneHigh parse cfg ov = _
      rw [applyOneHigh, hsf]
    refine ⟨⟨?_, ?_⟩, ?_, ?_⟩
    · rw [hhigh]
      exact lookupPath_setPath_self (parse v) _ cfg (splitAll_ne_nil _ _)
    · intro qs hdivq
      rw [hhigh]
      exact lookupPath_setPath_diverge _ hdivq cfg
    · intro hkey
      show applyOneMed parse cfg ov = cfg
      rw [applyOneMed, hsf]
      simp [hkey]
    · intro hkey
      have hmed : apply_overrides_medium parse cfg [ov] =
          setPath cfg (splitAll '.' (pyStrip k)) (parse (pyStrip v)) := by
        show applyOneMed parse cfg ov = _
        rw [applyOneMed, hsf]
        simp [hkey]
      refine ⟨?_, ?_⟩
      · rw [hmed]
        exact lookupPath_setPath_self _ _ cfg (splitAll_ne_nil _ _)
      · intro qs hdivq
        rw [hmed]
        exact lookupPath_setPath_diverge _ hdivq cfg

/-- Witness for the amended C10 theorem at concrete tokens: `"a=1"` sets
dotted key `a` (high variant), `"=1"` is skipped by the medium variant, and
`"a"` (no `=`) is skipped by the high variant. -/
theorem apply_overrides_one_token_witness :
    lookupPath (apply_overrides_high (fun s => s)
        ([] : List (Token × Cfg (List Char))) [['a', '=', '1']])
      (splitAll '.' ['a']) = some (Cfg.leaf ['1']) ∧
    apply_overrides_medium (fun s => s)
      ([] : List (Token × Cfg (List Char))) [['=', '1']] = [] ∧
    apply_overrides_high (fun s => s)
      ([] : List (Token × Cfg (List Char))) [['a']] = [] :=
  ⟨((apply_overrides_one_token (fun s => s) [] ['a', '=', '1']).2
      ['a'] ['1'] (by decide)).1.1,
   ((apply_overrides_one_token (fun s => s) [] ['=', '1']).2
      [] ['1'] (by decide)).2.1 rfl,
   ((apply_overrides_one_token (fun s => s) [] ['a']).1 (by decide)).1⟩

end MAE
